import Mathlib

/-!
Verification of the Workday REST API wrapper (Flask app + zeep SOAP client).

We shallowly embed the Python values manipulated by `app.py` and
`soap_client.py` as a JSON-like tree type `Val`, and translate the pure
transformation logic of the repository into Lean functions:

* `transform_xml_dict` and `clean_empty` (src/app.py lines 16-36 and 56-65);
* the `GetWorkersRequest` unwrapping of `parse_request_data`
  (src/app.py lines 38-54);
* the response extraction and filter construction of
  `WorkdaySOAPClient.get_workers` and
  `WorkdaySOAPClient.get_worker_by_reference`
  (src/soap_client.py lines 22-46 and 48-74);
* the control flow of the `login` handler (src/app.py lines 92-123).

Python dicts are modelled as ordered association lists
(`List (String × Val)`), with Python 3.7+ insertion-order update
semantics made explicit where the code builds dicts key by key.
-/

namespace Workday

/-- A Python/JSON value tree: `None`, booleans, integers, strings,
mappings (dicts, as ordered association lists) and sequences (lists).
This is the value universe crossed by `xmltodict.parse` output, JSON
request bodies, and `zeep.helpers.serialize_object` results. -/
inductive Val : Type where
  | vnull : Val
  | vbool : Bool → Val
  | vint : Int → Val
  | vstr : String → Val
  | vobj : List (String × Val) → Val
  | varr : List Val → Val

mutual

/-- Structural boolean equality on `Val` (used to derive decidable
equality, which the automatic deriving handler does not produce for this
nested inductive type). -/
def Val.beq : Val → Val → Bool
  | .vnull, .vnull => true
  | .vbool a, .vbool b => a == b
  | .vint a, .vint b => a == b
  | .vstr a, .vstr b => a == b
  | .vobj a, .vobj b => Val.beqEntries a b
  | .varr a, .varr b => Val.beqList a b
  | _, _ => false

/-- Boolean equality on dict entry lists. -/
def Val.beqEntries : List (String × Val) → List (String × Val) → Bool
  | [], [] => true
  | (k1, v1) :: r1, (k2, v2) :: r2 =>
      k1 == k2 && Val.beq v1 v2 && Val.beqEntries r1 r2
  | _, _ => false

/-- Boolean equality on value lists. -/
def Val.beqList : List Val → List Val → Bool
  | [], [] => true
  | v1 :: r1, v2 :: r2 => Val.beq v1 v2 && Val.beqList r1 r2
  | _, _ => false

end

mutual

theorem Val.beq_iff : ∀ a b : Val, Val.beq a b = true ↔ a = b
  | .vnull, .vnull => by simp [Val.beq]
  | .vnull, .vbool _ => by simp [Val.beq]
  | .vnull, .vint _ => by simp [Val.beq]
  | .vnull, .vstr _ => by simp [Val.beq]
  | .vnull, .vobj _ => by simp [Val.beq]
  | .vnull, .varr _ => by simp [Val.beq]
  | .vbool _, .vnull => by simp [Val.beq]
  | .vbool a, .vbool b => by simp [Val.beq]
  | .vbool _, .vint _ => by simp [Val.beq]
  | .vbool _, .vstr _ => by simp [Val.beq]
  | .vbool _, .vobj _ => by simp [Val.beq]
  | .vbool _, .varr _ => by simp [Val.beq]
  | .vint _, .vnull => by simp [Val.beq]
  | .vint _, .vbool _ => by simp [Val.beq]
  | .vint a, .vint b => by simp [Val.beq]
  | .vint _, .vstr _ => by simp [Val.beq]
  | .vint _, .vobj _ => by simp [Val.beq]
  | .vint _, .varr _ => by simp [Val.beq]
  | .vstr _, .vnull => by simp [Val.beq]
  | .vstr _, .vbool _ => by simp [Val.beq]
  | .vstr _, .vint _ => by simp [Val.beq]
  | .vstr a, .vstr b => by simp [Val.beq]
  | .vstr _, .vobj _ => by simp [Val.beq]
  | .vstr _, .varr _ => by simp [Val.beq]
  | .vobj _, .vnull => by simp [Val.beq]
  | .vobj _, .vbool _ => by simp [Val.beq]
  | .vobj _, .vint _ => by simp [Val.beq]
  | .vobj _, .vstr _ => by simp [Val.beq]
  | .vobj a, .vobj b => by
      simp only [Val.beq, Val.vobj.injEq]
      exact Val.beqEntries_iff a b
  | .vobj _, .varr _ => by simp [Val.beq]
  | .varr _, .vnull => by simp [Val.beq]
  | .varr _, .vbool _ => by simp [Val.beq]
  | .varr _, .vint _ => by simp [Val.beq]
  | .varr _, .vstr _ => by simp [Val.beq]
  | .varr _, .vobj _ => by simp [Val.beq]
  | .varr a, .varr b => by
      simp only [Val.beq, Val.varr.injEq]
      exact Val.beqList_iff a b

theorem Val.beqEntries_iff :
    ∀ a b : List (String × Val), Val.beqEntries a b = true ↔ a = b
  | [], [] => by simp [Val.beqEntries]
  | [], _ :: _ => by simp [Val.beqEntries]
  | _ :: _, [] => by simp [Val.beqEntries]
  | (k1, v1) :: r1, (k2, v2) :: r2 => by
      simp only [Val.beqEntries, Bool.and_eq_true, beq_iff_eq,
        List.cons.injEq, Prod.mk.injEq]
      rw [Val.beq_iff v1 v2, Val.beqEntries_iff r1 r2]

theorem Val.beqList_iff :
    ∀ a b : List Val, Val.beqList a b = true ↔ a = b
  | [], [] => by simp [Val.beqList]
  | [], _ :: _ => by simp [Val.beqList]
  | _ :: _, [] => by simp [Val.beqList]
  | v1 :: r1, v2 :: r2 => by
      simp only [Val.beqList, Bool.and_eq_true, List.cons.injEq]
      rw [Val.beq_iff v1 v2, Val.beqList_iff r1 r2]

end

instance : DecidableEq Val := fun a b =>
  decidable_of_iff (Val.beq a b = true) (Val.beq_iff a b)

/-- Member-wise induction principle for `Val` (the nested occurrence of
`Val` under `List` and `Prod` keeps the automatically generated recursor
from being directly usable). -/
theorem Val.inductionOn (P : Val → Prop)
    (hnull : P .vnull) (hbool : ∀ b, P (.vbool b)) (hint : ∀ n, P (.vint n))
    (hstr : ∀ s, P (.vstr s))
    (hobj : ∀ l, (∀ p ∈ l, P p.2) → P (.vobj l))
    (harr : ∀ l, (∀ v ∈ l, P v) → P (.varr l)) :
    ∀ v, P v
  | .vnull => hnull
  | .vbool b => hbool b
  | .vint n => hint n
  | .vstr s => hstr s
  | .vobj l => hobj l (fun p hp =>
      Val.inductionOn P hnull hbool hint hstr hobj harr p.2)
  | .varr l => harr l (fun v hv =>
      Val.inductionOn P hnull hbool hint hstr hobj harr v)
termination_by v => sizeOf v
decreasing_by
  · have h1 := List.sizeOf_lt_of_mem hp
    obtain ⟨k, v⟩ := p
    simp only [Val.vobj.sizeOf_spec]
    simp at h1 ⊢
    omega
  · have h1 := List.sizeOf_lt_of_mem hv
    simp only [Val.varr.sizeOf_spec]
    omega

/-! ## Python dict primitives -/

/-- Python `d[k] = v` on a dict represented as an ordered association
list: if `k` is already present its value is overwritten in place,
otherwise the pair is appended at the end (Python 3.7+ dict
insertion-order semantics). -/
def dictInsert (l : List (String × Val)) (k : String) (v : Val) :
    List (String × Val) :=
  if l.any (fun p => p.1 == k) then
    l.map (fun p => if p.1 == k then (k, v) else p)
  else
    l ++ [(k, v)]

/-- Building a Python dict by inserting the pairs of `l` in order into an
initially empty dict (the `new_dict = ...; for key, value in d.items():
new_dict[new_key] = ...` loop of `transform_xml_dict`). -/
def pyDictOfList (l : List (String × Val)) : List (String × Val) :=
  l.foldl (fun acc p => dictInsert acc p.1 p.2) []

/-- Python `d.get(k, default)`: the value at the first occurrence of `k`
(genuine Python dicts have at most one), else the default. -/
def pyDictGet (l : List (String × Val)) (k : String) (d : Val) : Val :=
  match l.find? (fun p => p.1 == k) with
  | some p => p.2
  | none => d

/-! ## transform_xml_dict (src/app.py lines 16-36) -/

/-- Python `key.startswith('@')`: the first character of the string is
`@` (false on the empty string). Stated over the character list of the
string so that it evaluates by kernel reduction. -/
def startsWithAt (k : String) : Bool :=
  match k.data with
  | [] => false
  | c :: _ => c == '@'

/-- Python `key[1:]`: the string without its first character. -/
def strTail (k : String) : String :=
  String.mk (k.data.drop 1)

/-- The key rewrite inside `transform_xml_dict` (src/app.py lines 25-30):
a key starting with `@` loses its first character (`key[1:]`), the key
`#text` becomes `_value_1`, every other key is unchanged. -/
def transformKey (k : String) : String :=
  if startsWithAt k then strTail k
  else if k = "#text" then "_value_1"
  else k

mutual

/-- `transform_xml_dict` (src/app.py lines 16-36): recursively rewrites
the keys of every dict with `transformKey`, rebuilding each dict by
Python insertion, recurses into every list element, and returns every
other value unchanged. -/
def transform_xml_dict : Val → Val
  | .vobj l => .vobj (pyDictOfList (transformEntries l))
  | .varr l => .varr (transformList l)
  | .vnull => .vnull
  | .vbool b => .vbool b
  | .vint n => .vint n
  | .vstr s => .vstr s

/-- The per-entry body of the `for key, value in d.items()` loop of
`transform_xml_dict`: rewrite the key, recurse into the value. -/
def transformEntries : List (String × Val) → List (String × Val)
  | [] => []
  | (k, v) :: rest => (transformKey k, transform_xml_dict v) :: transformEntries rest

/-- The list branch of `transform_xml_dict`:
`[transform_xml_dict(item) for item in d]`. -/
def transformList : List Val → List Val
  | [] => []
  | v :: rest => transform_xml_dict v :: transformList rest

end

/-! ## clean_empty (src/app.py lines 56-65) -/

/-- Membership in Python's `[None, {}, []]`: the emptiness test
`v not in [None, {}, []]` of `clean_empty` negated. -/
def isEmptyVal : Val → Bool
  | .vnull => true
  | .vobj [] => true
  | .varr [] => true
  | _ => false

/-- Whether a value is Python `None`. -/
def isNullVal : Val → Bool
  | .vnull => true
  | _ => false

mutual

/-- `clean_empty` (src/app.py lines 56-65): in every dict, drop the
entries whose (original, not yet cleaned) value is `None`, `{}` or `[]`
and recurse into the kept values; same for lists; scalars unchanged. -/
def clean_empty : Val → Val
  | .vobj l => .vobj (cleanEntries l)
  | .varr l => .varr (cleanList l)
  | .vnull => .vnull
  | .vbool b => .vbool b
  | .vint n => .vint n
  | .vstr s => .vstr s

/-- The dict comprehension of `clean_empty`:
`{k: clean_empty(v) for k, v in d.items() if v not in [None, {}, []]}`. -/
def cleanEntries : List (String × Val) → List (String × Val)
  | [] => []
  | (k, v) :: rest =>
      if isEmptyVal v then cleanEntries rest
      else (k, clean_empty v) :: cleanEntries rest

/-- The list comprehension of `clean_empty`:
`[clean_empty(item) for item in d if item not in [None, {}, []]]`. -/
def cleanList : List Val → List Val
  | [] => []
  | v :: rest =>
      if isEmptyVal v then cleanList rest
      else clean_empty v :: cleanList rest

end

/-! ## parse_request_data, XML branch (src/app.py lines 38-54) -/

/-- The root unwrapping of `parse_request_data` (src/app.py lines 48-49):
`if "GetWorkersRequest" in data: data = data["GetWorkersRequest"]`. -/
def unwrapGetWorkersRequest (data : Val) : Val :=
  match data with
  | .vobj l =>
      match l.find? (fun p => p.1 == "GetWorkersRequest") with
      | some p => p.2
      | none => .vobj l
  | v => v

/-- The XML branch of `parse_request_data` after `xmltodict.parse`
(src/app.py lines 45-50): unwrap a `GetWorkersRequest` root, then
normalize the keys. -/
def parse_request_data_xml (parsed : Val) : Val :=
  transform_xml_dict (unwrapGetWorkersRequest parsed)

/-- The Python dict produced by `xmltodict.parse` on the request body
`<GetWorkersRequest><Request_Criteria><Exclude_Inactive_Workers>true</Exclude_Inactive_Workers></Request_Criteria></GetWorkersRequest>`.
xmltodict maps element nesting to nested single-key dicts and element
text content to strings; it performs no type coercion, so the text
`true` stays the string `"true"`. -/
def exampleGetWorkersXmlParsed : Val :=
  .vobj [("GetWorkersRequest", .vobj [("Request_Criteria",
    .vobj [("Exclude_Inactive_Workers", .vstr "true")])])]

/-! ## WorkdaySOAPClient (src/soap_client.py) -/

/-- The arguments with which `WorkdaySOAPClient` invokes the remote
`Get_Workers` operation: the expanded filter document, the version tag,
and the `Include_Reference_Descriptors_In_Response` flag of the
`Workday_Common_Header` SOAP header. -/
structure SoapCall where
  filters : Val
  version : String
  includeReferenceDescriptors : Bool

instance : DecidableEq SoapCall
  | ⟨f1, v1, i1⟩, ⟨f2, v2, i2⟩ =>
      decidable_of_iff (f1 = f2 ∧ v1 = v2 ∧ i1 = i2)
        (by simp only [SoapCall.mk.injEq])

/-- The `Get_Workers` call issued by `WorkdaySOAPClient.get_workers`
(src/soap_client.py lines 24-32). -/
def get_workers_call (filters : Val) : SoapCall :=
  ⟨filters, "v43.2", true⟩

/-- The filter document constructed by
`WorkdaySOAPClient.get_worker_by_reference` (src/soap_client.py lines
53-59): one `Worker_Reference` with one `ID` of type `Employee_ID`
carrying the given value. -/
def worker_reference_filter (worker_id_value : String) : Val :=
  .vobj [("Request_References", .vobj [("Worker_Reference", .varr [
    .vobj [("ID", .varr [
      .vobj [("_value_1", .vstr worker_id_value),
             ("type", .vstr "Employee_ID")]])]])])]

/-- The `Get_Workers` call issued by
`WorkdaySOAPClient.get_worker_by_reference` (src/soap_client.py lines
61-65). -/
def get_worker_by_reference_call (worker_id_value : String) : SoapCall :=
  ⟨worker_reference_filter worker_id_value, "v43.2", true⟩

/-- The response extraction of `WorkdaySOAPClient.get_workers`
(src/soap_client.py lines 38-41) applied to the serialized SOAP response
(a dict): `workers = serialized_response.get("Response_Data", {}).get("Worker", [])`,
wrapped into a one-element list if it is not a list. `none` models the
exceptional path: when the `Response_Data` value is not a dict, the
chained `.get` raises and `get_workers` re-raises. -/
def get_workers_extract (resp : List (String × Val)) : Option Val :=
  match pyDictGet resp "Response_Data" (.vobj []) with
  | .vobj rdl =>
      match pyDictGet rdl "Worker" (.varr []) with
      | .varr ws => some (.varr ws)
      | w => some (.varr [w])
  | _ => none

/-- The response extraction of
`WorkdaySOAPClient.get_worker_by_reference` (src/soap_client.py lines
71-74): same as `get_workers`, then `workers[0] if workers else {}`. -/
def get_worker_by_reference_extract (resp : List (String × Val)) : Option Val :=
  match pyDictGet resp "Response_Data" (.vobj []) with
  | .vobj rdl =>
      match pyDictGet rdl "Worker" (.varr []) with
      | .varr [] => some (.vobj [])
      | .varr (w :: _) => some w
      | w => some w
  | _ => none

/-! ## The login handler (src/app.py lines 92-123) -/

/-- The JSON body and HTTP status produced by the `login` handler. -/
structure LoginResponse where
  status : Nat
  access_token : Option String
  msg : Option String
  errDetail : Option String

instance : DecidableEq LoginResponse
  | ⟨s1, t1, m1, e1⟩, ⟨s2, t2, m2, e2⟩ =>
      decidable_of_iff (s1 = s2 ∧ t1 = t2 ∧ m1 = m2 ∧ e1 = e2)
        (by simp only [LoginResponse.mk.injEq])

/-- Python truthiness of `data.get("username")` / `data.get("password")`:
an absent key yields `None` (falsy) and the empty string is falsy. -/
def pyTruthy : Option String → Bool
  | none => false
  | some s => !(s == "")

/-- Control flow of the `login` handler (src/app.py lines 104-123) after
a successful body parse: missing or empty credentials give 400;
otherwise the handler builds a `WorkdaySOAPClient` and probes it with
`get_workers({})`, and any exception from either step gives 401 with the
message `Invalid Workday credentials` plus the exception text; on
success it returns 200 with a freshly created access token.
`sessionResult` is the outcome of the `WorkdaySOAPClient` constructor
and `probeResult` the outcome of the probe call. -/
def login (username password : Option String)
    (sessionResult : Except String Unit) (probeResult : Except String Val)
    (token : String) : LoginResponse :=
  if !(pyTruthy username) || !(pyTruthy password) then
    ⟨400, none, some "Username and password required", none⟩
  else
    match sessionResult with
    | .error e => ⟨401, none, some "Invalid Workday credentials", some e⟩
    | .ok _ =>
        match probeResult with
        | .error e => ⟨401, none, some "Invalid Workday credentials", some e⟩
        | .ok _ => ⟨200, some token, none, none⟩

/-! ## Recursive shape predicates -/

mutual

/-- No value anywhere in the tree, as a dict entry or list element, is
`None`. -/
def noneFree : Val → Bool
  | .vobj l => noneFreeEntries l
  | .varr l => noneFreeList l
  | _ => true

/-- `noneFree` over dict entries. -/
def noneFreeEntries : List (String × Val) → Bool
  | [] => true
  | (_, v) :: rest => !isNullVal v && noneFree v && noneFreeEntries rest

/-- `noneFree` over list elements. -/
def noneFreeList : List Val → Bool
  | [] => true
  | v :: rest => !isNullVal v && noneFree v && noneFreeList rest

end

mutual

/-- No value anywhere in the tree, as a dict entry or list element,
equals `None`, `{}` or `[]` (the tree is fully pruned). -/
def emptyFree : Val → Bool
  | .vobj l => emptyFreeEntries l
  | .varr l => emptyFreeList l
  | _ => true

/-- `emptyFree` over dict entries. -/
def emptyFreeEntries : List (String × Val) → Bool
  | [] => true
  | (_, v) :: rest => !isEmptyVal v && emptyFree v && emptyFreeEntries rest

/-- `emptyFree` over list elements. -/
def emptyFreeList : List Val → Bool
  | [] => true
  | v :: rest => !isEmptyVal v && emptyFree v && emptyFreeList rest

end

mutual

/-- Every dict key in the tree is stable under a second key rewrite:
`transformKey (transformKey k) = transformKey k`. Equivalently, no key
starts with `@@` and no key equals `@#text`. -/
def stableKeys : Val → Bool
  | .vobj l => stableKeysEntries l
  | .varr l => stableKeysList l
  | _ => true

/-- `stableKeys` over dict entries. -/
def stableKeysEntries : List (String × Val) → Bool
  | [] => true
  | (k, v) :: rest =>
      (transformKey (transformKey k) == transformKey k) && stableKeys v &&
        stableKeysEntries rest

/-- `stableKeys` over list elements. -/
def stableKeysList : List Val → Bool
  | [] => true
  | v :: rest => stableKeys v && stableKeysList rest

end

mutual

/-- The tree is a fixed point candidate for `transform_xml_dict`: every
dict has pairwise distinct keys and every key is a fixed point of
`transformKey`. -/
def fixedVal : Val → Bool
  | .vobj l => decide (l.map Prod.fst).Nodup && fixedEntries l
  | .varr l => fixedList l
  | _ => true

/-- `fixedVal` over dict entries. -/
def fixedEntries : List (String × Val) → Bool
  | [] => true
  | (k, v) :: rest => (transformKey k == k) && fixedVal v && fixedEntries rest

/-- `fixedVal` over list elements. -/
def fixedList : List Val → Bool
  | [] => true
  | v :: rest => fixedVal v && fixedList rest

end

/-! ## Helper lemmas -/

theorem transformEntries_eq_map (l : List (String × Val)) :
    transformEntries l =
      l.map (fun p => (transformKey p.1, transform_xml_dict p.2)) := by
  induction l with
  | nil => rfl
  | cons p rest ih =>
      obtain ⟨k, v⟩ := p
      simp [transformEntries, ih]

theorem transformList_eq_map (l : List Val) :
    transformList l = l.map transform_xml_dict := by
  induction l with
  | nil => rfl
  | cons v rest ih => simp [transformList, ih]

theorem dictInsert_keys (l : List (String × Val)) (k : String) (v : Val) :
    (dictInsert l k v).map Prod.fst =
      if l.any (fun p => p.1 == k) then l.map Prod.fst
      else l.map Prod.fst ++ [k] := by
  by_cases h : l.any (fun p => p.1 == k) = true
  · rw [if_pos h]
    unfold dictInsert
    rw [if_pos h, List.map_map]
    apply List.map_congr_left
    intro p _
    simp only [Function.comp_apply]
    by_cases hpk : (p.1 == k) = true
    · rw [if_pos hpk]
      exact (eq_of_beq hpk).symm
    · rw [if_neg hpk]
  · rw [if_neg h]
    unfold dictInsert
    rw [if_neg h]
    simp

theorem mem_dictInsert (l : List (String × Val)) (k : String) (v : Val)
    (q : String × Val) (hq : q ∈ dictInsert l k v) : q ∈ l ∨ q = (k, v) := by
  unfold dictInsert at hq
  by_cases h : l.any (fun p => p.1 == k) = true
  · rw [if_pos h] at hq
    rw [List.mem_map] at hq
    obtain ⟨p, hp, hpe⟩ := hq
    by_cases hpk : (p.1 == k) = true
    · right
      rw [if_pos hpk] at hpe
      exact hpe.symm
    · left
      rw [if_neg hpk] at hpe
      rw [← hpe]
      exact hp
  · rw [if_neg h] at hq
    rcases List.mem_append.mp hq with h1 | h1
    · left; exact h1
    · right; simpa using h1

theorem dictInsert_of_not_any (l : List (String × Val)) (k : String) (v : Val)
    (h : l.any (fun p => p.1 == k) = false) :
    dictInsert l k v = l ++ [(k, v)] := by
  unfold dictInsert
  rw [if_neg]
  simp [h]

theorem foldl_dictInsert_keys_nodup :
    ∀ (l acc : List (String × Val)), (acc.map Prod.fst).Nodup →
      ((l.foldl (fun a p => dictInsert a p.1 p.2) acc).map Prod.fst).Nodup := by
  intro l
  induction l with
  | nil => intro acc h; exact h
  | cons p rest ih =>
      intro acc h
      rw [List.foldl_cons]
      apply ih
      rw [dictInsert_keys]
      by_cases ha : acc.any (fun q => q.1 == p.1) = true
      · rw [if_pos ha]; exact h
      · rw [if_neg ha]
        simp only [List.any_eq_true, not_exists, not_and] at ha
        rw [List.nodup_append]
        refine ⟨h, List.nodup_singleton _, ?_⟩
        intro a hamem hasing
        rw [List.mem_singleton] at hasing
        rw [List.mem_map] at hamem
        obtain ⟨q, hq, hqa⟩ := hamem
        refine ha q hq ?_
        rw [hqa, hasing]
        exact beq_self_eq_true _

theorem pyDictOfList_keys_nodup (l : List (String × Val)) :
    ((pyDictOfList l).map Prod.fst).Nodup := by
  apply foldl_dictInsert_keys_nodup
  simp

theorem mem_foldl_dictInsert :
    ∀ (l acc : List (String × Val)) (q : String × Val),
      q ∈ l.foldl (fun a p => dictInsert a p.1 p.2) acc → q ∈ acc ∨ q ∈ l := by
  intro l
  induction l with
  | nil => intro acc q h; left; simpa using h
  | cons p rest ih =>
      intro acc q h
      rw [List.foldl_cons] at h
      rcases ih _ q h with h1 | h1
      · rcases mem_dictInsert _ _ _ _ h1 with h2 | h2
        · left; exact h2
        · right
          rw [h2]
          simp
      · right
        exact List.mem_cons_of_mem _ h1

theorem mem_pyDictOfList (l : List (String × Val)) (q : String × Val)
    (h : q ∈ pyDictOfList l) : q ∈ l := by
  rcases mem_foldl_dictInsert l [] q h with h1 | h1
  · simp at h1
  · exact h1

theorem foldl_dictInsert_eq_append :
    ∀ (l acc : List (String × Val)),
      ((acc ++ l).map Prod.fst).Nodup →
      l.foldl (fun a p => dictInsert a p.1 p.2) acc = acc ++ l := by
  intro l
  induction l with
  | nil => intro acc _; simp
  | cons p rest ih =>
      intro acc h
      rw [List.foldl_cons]
      have hnotin : acc.any (fun q => q.1 == p.1) = false := by
        rw [List.map_append, List.nodup_append] at h
        obtain ⟨_, _, hdisj⟩ := h
        rw [List.any_eq_false]
        intro q hq
        intro hbeq
        refine hdisj (List.mem_map_of_mem Prod.fst hq) ?_
        rw [eq_of_beq hbeq]
        simp
      rw [dictInsert_of_not_any _ _ _ hnotin]
      have hassoc : acc ++ [(p.1, p.2)] ++ rest = acc ++ p :: rest := by simp
      rw [ih (acc ++ [(p.1, p.2)]) (by rw [hassoc]; exact h), hassoc]

theorem pyDictOfList_eq_self (l : List (String × Val))
    (h : (l.map Prod.fst).Nodup) : pyDictOfList l = l := by
  have := foldl_dictInsert_eq_append l [] (by simpa using h)
  simpa [pyDictOfList] using this

theorem fixedEntries_iff (l : List (String × Val)) :
    fixedEntries l = true ↔
      ∀ p ∈ l, transformKey p.1 = p.1 ∧ fixedVal p.2 = true := by
  induction l with
  | nil => simp [fixedEntries]
  | cons p rest ih =>
      obtain ⟨k, v⟩ := p
      simp [fixedEntries, ih, Bool.and_eq_true, List.forall_mem_cons, and_assoc]

theorem fixedList_iff (l : List Val) :
    fixedList l = true ↔ ∀ v ∈ l, fixedVal v = true := by
  induction l with
  | nil => simp [fixedList]
  | cons v rest ih =>
      simp [fixedList, ih, Bool.and_eq_true, List.forall_mem_cons]

theorem stableKeysEntries_iff (l : List (String × Val)) :
    stableKeysEntries l = true ↔
      ∀ p ∈ l, transformKey (transformKey p.1) = transformKey p.1 ∧
        stableKeys p.2 = true := by
  induction l with
  | nil => simp [stableKeysEntries]
  | cons p rest ih =>
      obtain ⟨k, v⟩ := p
      simp [stableKeysEntries, ih, Bool.and_eq_true, List.forall_mem_cons,
        and_assoc]

theorem stableKeysList_iff (l : List Val) :
    stableKeysList l = true ↔ ∀ v ∈ l, stableKeys v = true := by
  induction l with
  | nil => simp [stableKeysList]
  | cons v rest ih =>
      simp [stableKeysList, ih, Bool.and_eq_true, List.forall_mem_cons]

theorem transform_fixed : ∀ v, fixedVal v = true → transform_xml_dict v = v := by
  intro v
  induction v using Val.inductionOn with
  | hnull => intro _; rfl
  | hbool b => intro _; rfl
  | hint n => intro _; rfl
  | hstr s => intro _; rfl
  | hobj l ih =>
      intro h
      simp only [fixedVal, Bool.and_eq_true, decide_eq_true_eq] at h
      obtain ⟨hnd, hfe⟩ := h
      simp only [transform_xml_dict]
      have he : transformEntries l = l := by
        rw [transformEntries_eq_map]
        have hcg : ∀ p ∈ l, (transformKey p.1, transform_xml_dict p.2) = p := by
          intro p hp
          obtain ⟨hk, hv⟩ := (fixedEntries_iff l).mp hfe p hp
          have hv2 := ih p hp hv
          rw [hk, hv2]
        rw [List.map_congr_left hcg]
        exact List.map_id' l
      rw [he, pyDictOfList_eq_self l hnd]
  | harr l ih =>
      intro h
      simp only [fixedVal] at h
      simp only [transform_xml_dict]
      rw [transformList_eq_map]
      have hcg : ∀ v ∈ l, transform_xml_dict v = v := fun v hv =>
        ih v hv ((fixedList_iff l).mp h v hv)
      rw [List.map_congr_left hcg]
      rw [List.map_id' l]

theorem transform_stable_fixed :
    ∀ v, stableKeys v = true → fixedVal (transform_xml_dict v) = true := by
  intro v
  induction v using Val.inductionOn with
  | hnull => intro _; rfl
  | hbool b => intro _; rfl
  | hint n => intro _; rfl
  | hstr s => intro _; rfl
  | hobj l ih =>
      intro h
      simp only [stableKeys] at h
      simp only [transform_xml_dict, fixedVal, Bool.and_eq_true,
        decide_eq_true_eq]
      constructor
      · exact pyDictOfList_keys_nodup (transformEntries l)
      · rw [fixedEntries_iff]
        intro q hq
        have hq2 := mem_pyDictOfList _ q hq
        rw [transformEntries_eq_map, List.mem_map] at hq2
        obtain ⟨p, hp, rfl⟩ := hq2
        obtain ⟨hk, hv⟩ := (stableKeysEntries_iff l).mp h p hp
        exact ⟨hk, ih p hp hv⟩
  | harr l ih =>
      intro h
      simp only [stableKeys] at h
      simp only [transform_xml_dict, fixedVal]
      rw [fixedList_iff]
      intro w hw
      rw [transformList_eq_map, List.mem_map] at hw
      obtain ⟨v, hv, rfl⟩ := hw
      exact ih v hv ((stableKeysList_iff l).mp h v hv)

theorem isNullVal_clean_empty (v : Val) :
    isNullVal (clean_empty v) = isNullVal v := by
  cases v <;> rfl

theorem isNullVal_false_of_not_empty (v : Val) (h : isEmptyVal v = false) :
    isNullVal v = false := by
  cases v with
  | vnull => simp [isEmptyVal] at h
  | vbool b => rfl
  | vint n => rfl
  | vstr s => rfl
  | vobj l => rfl
  | varr l => rfl

theorem noneFree_cleanEntries :
    ∀ l : List (String × Val),
      (∀ p ∈ l, noneFree (clean_empty p.2) = true) →
      noneFreeEntries (cleanEntries l) = true := by
  intro l
  induction l with
  | nil => intro _; rfl
  | cons p rest ihr =>
      intro ih
      obtain ⟨k, v⟩ := p
      by_cases hv : isEmptyVal v = true
      · simp only [cleanEntries, hv, if_true]
        exact ihr (fun q hq => ih q (List.mem_cons_of_mem _ hq))
      · have hv2 : isEmptyVal v = false := by simpa using hv
        rw [cleanEntries, if_neg (by simp [hv2])]
        simp only [noneFreeEntries, Bool.and_eq_true]
        refine ⟨⟨?_, ?_⟩, ?_⟩
        · rw [isNullVal_clean_empty, isNullVal_false_of_not_empty v hv2]
          rfl
        · exact ih (k, v) (List.mem_cons_self _ _)
        · exact ihr (fun q hq => ih q (List.mem_cons_of_mem _ hq))

theorem noneFree_cleanList :
    ∀ l : List Val,
      (∀ v ∈ l, noneFree (clean_empty v) = true) →
      noneFreeList (cleanList l) = true := by
  intro l
  induction l with
  | nil => intro _; rfl
  | cons v rest ihr =>
      intro ih
      by_cases hv : isEmptyVal v = true
      · simp only [cleanList, hv, if_true]
        exact ihr (fun q hq => ih q (List.mem_cons_of_mem _ hq))
      · have hv2 : isEmptyVal v = false := by simpa using hv
        rw [cleanList, if_neg (by simp [hv2])]
        simp only [noneFreeList, Bool.and_eq_true]
        refine ⟨⟨?_, ?_⟩, ?_⟩
        · rw [isNullVal_clean_empty, isNullVal_false_of_not_empty v hv2]
          rfl
        · exact ih v (List.mem_cons_self _ _)
        · exact ihr (fun q hq => ih q (List.mem_cons_of_mem _ hq))

theorem cleanEntries_eq_self :
    ∀ l : List (String × Val),
      emptyFreeEntries l = true →
      (∀ p ∈ l, emptyFree p.2 = true → clean_empty p.2 = p.2) →
      cleanEntries l = l := by
  intro l
  induction l with
  | nil => intro _ _; rfl
  | cons p rest ihr =>
      intro h ih
      obtain ⟨k, v⟩ := p
      simp only [emptyFreeEntries, Bool.and_eq_true, Bool.not_eq_true'] at h
      obtain ⟨⟨hv, hf⟩, hrest⟩ := h
      rw [cleanEntries, if_neg (by simp [hv])]
      rw [ih (k, v) (List.mem_cons_self _ _) hf]
      rw [ihr hrest (fun q hq hqf => ih q (List.mem_cons_of_mem _ hq) hqf)]

theorem cleanList_eq_self :
    ∀ l : List Val,
      emptyFreeList l = true →
      (∀ v ∈ l, emptyFree v = true → clean_empty v = v) →
      cleanList l = l := by
  intro l
  induction l with
  | nil => intro _ _; rfl
  | cons v rest ihr =>
      intro h ih
      simp only [emptyFreeList, Bool.and_eq_true, Bool.not_eq_true'] at h
      obtain ⟨⟨hv, hf⟩, hrest⟩ := h
      rw [cleanList, if_neg (by simp [hv])]
      rw [ih v (List.mem_cons_self _ _) hf]
      rw [ihr hrest (fun q hq hqf => ih q (List.mem_cons_of_mem _ hq) hqf)]

theorem clean_empty_eq_self :
    ∀ v, emptyFree v = true → clean_empty v = v := by
  intro v
  induction v using Val.inductionOn with
  | hnull => intro _; rfl
  | hbool b => intro _; rfl
  | hint n => intro _; rfl
  | hstr s => intro _; rfl
  | hobj l ih =>
      intro h
      simp only [emptyFree] at h
      simp only [clean_empty]
      rw [cleanEntries_eq_self l h ih]
  | harr l ih =>
      intro h
      simp only [emptyFree] at h
      simp only [clean_empty]
      rw [cleanList_eq_self l h ih]

theorem mem_cleanEntries_of (k : String) (v : Val)
    (hv : isEmptyVal v = false) (hc : clean_empty v = v) :
    ∀ l : List (String × Val), (k, v) ∈ l → (k, v) ∈ cleanEntries l := by
  intro l
  induction l with
  | nil => intro h; exact absurd h (List.not_mem_nil _)
  | cons p rest ih =>
      intro h
      obtain ⟨k2, v2⟩ := p
      rcases List.mem_cons.mp h with h1 | h1
      · obtain ⟨rfl, rfl⟩ := Prod.mk.injEq .. |>.mp h1
        rw [cleanEntries, if_neg (by simp [hv])]
        rw [hc]
        exact List.mem_cons_self _ _
      · by_cases he : isEmptyVal v2 = true
        · simp only [cleanEntries, he, if_true]
          exact ih h1
        · rw [cleanEntries, if_neg he]
          exact List.mem_cons_of_mem _ (ih h1)

theorem mem_cleanList_of (v : Val)
    (hv : isEmptyVal v = false) (hc : clean_empty v = v) :
    ∀ l : List Val, v ∈ l → v ∈ cleanList l := by
  intro l
  induction l with
  | nil => intro h; exact absurd h (List.not_mem_nil _)
  | cons w rest ih =>
      intro h
      rcases List.mem_cons.mp h with h1 | h1
      · subst h1
        rw [cleanList, if_neg (by simp [hv])]
        rw [hc]
        exact List.mem_cons_self _ _
      · by_cases he : isEmptyVal w = true
        · simp only [cleanList, he, if_true]
          exact ih h1
        · rw [cleanList, if_neg he]
          exact List.mem_cons_of_mem _ (ih h1)

/-! ## Claim theorems -/

/-- C1: for every serialized SOAP response, the extraction in
`WorkdaySOAPClient.get_workers` yields `Response_Data.Worker` normalized
to a sequence: any returned value is a sequence (never null), a missing
`Response_Data` key or a missing `Worker` key yields the empty sequence,
a sequence value is returned as is, and a single worker mapping is
wrapped into a one-element sequence. -/
theorem get_workers_normalizes_response (resp : List (String × Val)) :
    (∀ r, get_workers_extract resp = some r → ∃ ws, r = Val.varr ws) ∧
    (resp.find? (fun p => p.1 == "Response_Data") = none →
      get_workers_extract resp = some (Val.varr [])) ∧
    (∀ rdl, pyDictGet resp "Response_Data" (Val.vobj []) = Val.vobj rdl →
      ((rdl.find? (fun p => p.1 == "Worker") = none →
          get_workers_extract resp = some (Val.varr [])) ∧
       (∀ ws, pyDictGet rdl "Worker" (Val.varr []) = Val.varr ws →
          get_workers_extract resp = some (Val.varr ws)) ∧
       (∀ wo, pyDictGet rdl "Worker" (Val.varr []) = Val.vobj wo →
          get_workers_extract resp = some (Val.varr [Val.vobj wo])))) := by
  refine ⟨?_, ?_, ?_⟩
  · intro r hr
    unfold get_workers_extract at hr
    split at hr
    · split at hr
      · exact ⟨_, (Option.some.inj hr).symm⟩
      · exact ⟨_, (Option.some.inj hr).symm⟩
    · exact Option.noConfusion hr
  · intro h
    simp [get_workers_extract, pyDictGet, h]
  · intro rdl hrd
    refine ⟨?_, ?_, ?_⟩
    · intro hw
      have hw2 : pyDictGet rdl "Worker" (Val.varr []) = Val.varr [] := by
        unfold pyDictGet
        rw [hw]
      simp [get_workers_extract, hrd, hw2]
    · intro ws hw
      simp [get_workers_extract, hrd, hw]
    · intro wo hw
      simp [get_workers_extract, hrd, hw]

/-- Witness for C1: a response carrying a single (non-list) worker
mapping is wrapped into a one-element sequence. -/
theorem get_workers_normalizes_response_witness :
    get_workers_extract
        [("Response_Data", Val.vobj [("Worker",
          Val.vobj [("Worker_ID", Val.vstr "21001")])])] =
      some (Val.varr [Val.vobj [("Worker_ID", Val.vstr "21001")]]) :=
  ((get_workers_normalizes_response
      [("Response_Data", Val.vobj [("Worker",
        Val.vobj [("Worker_ID", Val.vstr "21001")])])]).2.2
    [("Worker", Val.vobj [("Worker_ID", Val.vstr "21001")])]
    (by decide)).2.2 [("Worker_ID", Val.vstr "21001")] (by decide)

/-- C2: with a username and password present, the `login` handler
returns 200 with an access token when both the session construction and
the zero-filter probe succeed, returns 401 with the message
`Invalid Workday credentials` when either step raises, and never
returns 500. -/
theorem login_probe_status (u p : Option String)
    (sres : Except String Unit) (pres : Except String Val) (tok : String)
    (hu : pyTruthy u = true) (hpw : pyTruthy p = true) :
    (sres = Except.ok () → ∀ w, pres = Except.ok w →
      login u p sres pres tok = ⟨200, some tok, none, none⟩) ∧
    (∀ e, sres = Except.error e →
      (login u p sres pres tok).status = 401 ∧
      (login u p sres pres tok).msg = some "Invalid Workday credentials" ∧
      (login u p sres pres tok).status ≠ 500) ∧
    (∀ e, sres = Except.ok () → pres = Except.error e →
      (login u p sres pres tok).status = 401 ∧
      (login u p sres pres tok).msg = some "Invalid Workday credentials" ∧
      (login u p sres pres tok).status ≠ 500) ∧
    (login u p sres pres tok).status ≠ 500 := by
  refine ⟨?_, ?_, ?_, ?_⟩
  · intro hs w hw
    subst hs
    subst hw
    simp [login, hu, hpw]
  · intro e hs
    subst hs
    simp [login, hu, hpw]
  · intro e hs hw
    subst hs
    subst hw
    simp [login, hu, hpw]
  · cases sres with
    | error e => simp [login, hu, hpw]
    | ok u2 =>
        cases pres with
        | error e => simp [login, hu, hpw]
        | ok w => simp [login, hu, hpw]

/-- Witness for C2: a probe failure yields 401, and a successful session
plus probe yields 200 with the token. -/
theorem login_probe_status_witness :
    (login (some "alice") (some "secret") (Except.ok ())
      (Except.error "boom") "tok").status = 401 ∧
    login (some "alice") (some "secret") (Except.ok ())
      (Except.ok Val.vnull) "tok" = ⟨200, some "tok", none, none⟩ := by
  constructor
  · exact ((login_probe_status (some "alice") (some "secret") (Except.ok ())
      (Except.error "boom") "tok" (by decide) (by decide)).2.2.1 "boom"
      rfl rfl).1
  · exact (login_probe_status (some "alice") (some "secret") (Except.ok ())
      (Except.ok Val.vnull) "tok" (by decide) (by decide)).1 rfl Val.vnull rfl

/-- Counterexample for C3: `clean_empty` filters entries on their value
before cleaning it, so a nested container that only becomes empty
through pruning survives: the output for `a ↦ (b ↦ None)` is `a ↦ ()`,
which still contains an entry equal to the empty mapping. -/
theorem clean_empty_leaves_empty_mapping :
    clean_empty (Val.vobj [("a", Val.vobj [("b", Val.vnull)])]) =
      Val.vobj [("a", Val.vobj [])] ∧
    emptyFree (clean_empty (Val.vobj [("a", Val.vobj [("b", Val.vnull)])])) =
      false := by decide

/-- C3 (amended): the output of `clean_empty` contains, recursively, no
mapping entry and no sequence element equal to `None`; entries equal to
the empty mapping or the empty sequence can remain when a non-empty
value becomes empty through pruning. -/
theorem clean_empty_output_none_free :
    ∀ v, noneFree (clean_empty v) = true := by
  intro v
  induction v using Val.inductionOn with
  | hnull => rfl
  | hbool b => rfl
  | hint n => rfl
  | hstr s => rfl
  | hobj l ih =>
      simp only [clean_empty, noneFree]
      exact noneFree_cleanEntries l ih
  | harr l ih =>
      simp only [clean_empty, noneFree]
      exact noneFree_cleanList l ih

/-- Counterexample for C4: `clean_empty` is not idempotent; a second
pass removes the mapping that the first pass emptied. -/
theorem clean_empty_not_idempotent :
    clean_empty (clean_empty (Val.vobj [("a", Val.vobj [("b", Val.vnull)])])) ≠
      clean_empty (Val.vobj [("a", Val.vobj [("b", Val.vnull)])]) := by decide

/-- C4 (amended): `clean_empty` is idempotent on already-pruned trees,
those containing no entry equal to `None`, the empty mapping or the
empty sequence at any depth (on such trees it is the identity). -/
theorem clean_empty_idempotent_on_pruned :
    ∀ v, emptyFree v = true →
      clean_empty (clean_empty v) = clean_empty v := by
  intro v h
  rw [clean_empty_eq_self v h]
  exact clean_empty_eq_self v h

/-- Witness for C4: idempotence on a concrete pruned tree. -/
theorem clean_empty_idempotent_on_pruned_witness :
    emptyFree (Val.vobj [("a", Val.vint 1)]) = true ∧
    clean_empty (clean_empty (Val.vobj [("a", Val.vint 1)])) =
      clean_empty (Val.vobj [("a", Val.vint 1)]) :=
  ⟨by decide, clean_empty_idempotent_on_pruned (Val.vobj [("a", Val.vint 1)])
    (by decide)⟩

/-- Counterexample for C5: `transform_xml_dict` is not idempotent; a key
`@@a` loses one `@` per pass, so a second pass changes the tree again. -/
theorem transform_xml_dict_not_idempotent :
    transform_xml_dict (transform_xml_dict (Val.vobj [("@@a", Val.vint 0)])) ≠
      transform_xml_dict (Val.vobj [("@@a", Val.vint 0)]) := by decide

/-- C5 (amended): `transform_xml_dict` is idempotent on every tree whose
mapping keys are all stable under a second key rewrite
(`transformKey (transformKey k) = transformKey k`; equivalently, no key
begins with `@@` and no key equals `@#text`). -/
theorem transform_xml_dict_idempotent_on_stable_keys :
    ∀ v, stableKeys v = true →
      transform_xml_dict (transform_xml_dict v) = transform_xml_dict v :=
  fun v h => transform_fixed _ (transform_stable_fixed v h)

/-- Witness for C5: idempotence on a concrete tree with attribute and
text-node keys. -/
theorem transform_xml_dict_idempotent_on_stable_keys_witness :
    stableKeys (Val.vobj [("@lang", Val.vstr "en"),
      ("#text", Val.vstr "hello")]) = true ∧
    transform_xml_dict (transform_xml_dict (Val.vobj [("@lang", Val.vstr "en"),
        ("#text", Val.vstr "hello")])) =
      transform_xml_dict (Val.vobj [("@lang", Val.vstr "en"),
        ("#text", Val.vstr "hello")]) :=
  ⟨by decide, transform_xml_dict_idempotent_on_stable_keys
    (Val.vobj [("@lang", Val.vstr "en"), ("#text", Val.vstr "hello")])
    (by decide)⟩

/-- Counterexample for C6: the example XML body does not normalize to
the JSON filter document with a boolean `True` leaf; xmltodict yields
the text content as the string `"true"` and neither the unwrapping nor
`transform_xml_dict` coerces value types. -/
theorem xml_example_not_boolean_filter :
    parse_request_data_xml exampleGetWorkersXmlParsed ≠
      Val.vobj [("Request_Criteria",
        Val.vobj [("Exclude_Inactive_Workers", Val.vbool true)])] := by decide

/-- C6 (amended): the example XML body, after unwrapping the
`GetWorkersRequest` root and normalizing, yields the filter document of
the same shape with the string leaf `"true"` in place of the boolean
`True`. -/
theorem xml_example_normalizes_to_string_leaf :
    parse_request_data_xml exampleGetWorkersXmlParsed =
      Val.vobj [("Request_Criteria",
        Val.vobj [("Exclude_Inactive_Workers", Val.vstr "true")])] := by decide

/-- C7: `get_worker_by_reference` issues the same `Get_Workers` call as
`get_workers`, on a filter whose `Request_References.Worker_Reference`
holds exactly one reference with exactly one ID of type `Employee_ID`
carrying the given value, and returns the first element of the
normalized worker sequence, or the empty mapping when that sequence is
empty. -/
theorem get_worker_by_reference_spec (idv : String)
    (resp : List (String × Val)) (ws : List Val) :
    get_worker_by_reference_call idv =
      get_workers_call (worker_reference_filter idv) ∧
    (∃ idrec,
      worker_reference_filter idv =
        Val.vobj [("Request_References", Val.vobj [("Worker_Reference",
          Val.varr [Val.vobj [("ID", Val.varr [idrec])]])])] ∧
      idrec = Val.vobj [("_value_1", Val.vstr idv),
        ("type", Val.vstr "Employee_ID")]) ∧
    (get_workers_extract resp = some (Val.varr ws) →
      get_worker_by_reference_extract resp = some (ws.headD (Val.vobj []))) := by
  refine ⟨rfl, ⟨_, rfl, rfl⟩, ?_⟩
  intro h
  rcases hrd : pyDictGet resp "Response_Data" (Val.vobj [])
    with _ | b | n | s | rdl | al
  · simp [get_workers_extract, hrd] at h
  · simp [get_workers_extract, hrd] at h
  · simp [get_workers_extract, hrd] at h
  · simp [get_workers_extract, hrd] at h
  · rcases hw : pyDictGet rdl "Worker" (Val.varr [])
      with _ | b2 | n2 | s2 | wo | wl
    · simp only [get_workers_extract, hrd, hw, Option.some.injEq,
        Val.varr.injEq] at h
      subst h
      simp [get_worker_by_reference_extract, hrd, hw]
    · simp only [get_workers_extract, hrd, hw, Option.some.injEq,
        Val.varr.injEq] at h
      subst h
      simp [get_worker_by_reference_extract, hrd, hw]
    · simp only [get_workers_extract, hrd, hw, Option.some.injEq,
        Val.varr.injEq] at h
      subst h
      simp [get_worker_by_reference_extract, hrd, hw]
    · simp only [get_workers_extract, hrd, hw, Option.some.injEq,
        Val.varr.injEq] at h
      subst h
      simp [get_worker_by_reference_extract, hrd, hw]
    · simp only [get_workers_extract, hrd, hw, Option.some.injEq,
        Val.varr.injEq] at h
      subst h
      simp [get_worker_by_reference_extract, hrd, hw]
    · simp only [get_workers_extract, hrd, hw, Option.some.injEq,
        Val.varr.injEq] at h
      subst h
      cases wl with
      | nil => simp [get_worker_by_reference_extract, hrd, hw]
      | cons w t => simp [get_worker_by_reference_extract, hrd, hw]
  · simp [get_workers_extract, hrd] at h

/-- Witness for C7: on a response with two workers, the first one is
returned. -/
theorem get_worker_by_reference_spec_witness :
    get_worker_by_reference_extract
        [("Response_Data", Val.vobj [("Worker", Val.varr
          [Val.vobj [("a", Val.vint 1)], Val.vobj [("b", Val.vint 2)]])])] =
      some (Val.vobj [("a", Val.vint 1)]) :=
  (get_worker_by_reference_spec "21001"
    [("Response_Data", Val.vobj [("Worker", Val.varr
      [Val.vobj [("a", Val.vint 1)], Val.vobj [("b", Val.vint 2)]])])]
    [Val.vobj [("a", Val.vint 1)], Val.vobj [("b", Val.vint 2)]]).2.2
    (by decide)

/-- C8: the normalizer rewrites each mapping key that begins with `@` by
dropping exactly that one leading character, rewrites `#text` to
`_value_1`, leaves every other key and every scalar leaf unchanged, and
recurses uniformly into mapping values and into every element of
sequence values, preserving sequence order. -/
theorem transform_xml_dict_key_rewrite (k : String) (b : Bool) (n : Int)
    (s : String) (l : List Val) (entries : List (String × Val)) :
    (startsWithAt k = true → k.data = '@' :: (transformKey k).data) ∧
    transformKey "#text" = "_value_1" ∧
    (startsWithAt k = false → k ≠ "#text" → transformKey k = k) ∧
    transform_xml_dict Val.vnull = Val.vnull ∧
    transform_xml_dict (Val.vbool b) = Val.vbool b ∧
    transform_xml_dict (Val.vint n) = Val.vint n ∧
    transform_xml_dict (Val.vstr s) = Val.vstr s ∧
    transform_xml_dict (Val.varr l) = Val.varr (l.map transform_xml_dict) ∧
    transform_xml_dict (Val.vobj entries) =
      Val.vobj (pyDictOfList (entries.map
        (fun p => (transformKey p.1, transform_xml_dict p.2)))) := by
  refine ⟨?_, by decide, ?_, rfl, rfl, rfl, rfl, ?_, ?_⟩
  · intro h
    have ht : transformKey k = strTail k := by
      unfold transformKey
      rw [if_pos h]
    rw [ht]
    unfold startsWithAt at h
    unfold strTail
    rcases hk : k.data with _ | ⟨c, cs⟩
    · rw [hk] at h
      simp at h
    · rw [hk] at h
      have hc : c = '@' := by simpa using h
      subst hc
      rfl
  · intro h1 h2
    unfold transformKey
    rw [if_neg (by simp [h1]), if_neg h2]
  · simp only [transform_xml_dict]
    rw [transformList_eq_map]
  · simp only [transform_xml_dict]
    rw [transformEntries_eq_map]

/-- Witness for C8: a concrete attribute key loses its marker and a
plain key passes through unchanged. -/
theorem transform_xml_dict_key_rewrite_witness :
    "@lang".data = '@' :: (transformKey "@lang").data ∧
    transformKey "Worker" = "Worker" :=
  ⟨(transform_xml_dict_key_rewrite "@lang" true 0 "" [] []).1 (by decide),
   (transform_xml_dict_key_rewrite "Worker" true 0 "" [] []).2.2.1
     (by decide) (by decide)⟩

/-- C9: `clean_empty` removes only values equal to `None`, the empty
mapping or the empty sequence; the scalar leaves `False`, `0` and the
empty string are not pruned, are left unchanged, and survive as dict
entries and as list elements. -/
theorem clean_empty_preserves_falsy_scalars
    (v : Val) (k : String) (l : List (String × Val)) (a : List Val)
    (h : v = Val.vbool false ∨ v = Val.vint 0 ∨ v = Val.vstr "") :
    isEmptyVal v = false ∧ clean_empty v = v ∧
    ((k, v) ∈ l → (k, v) ∈ cleanEntries l) ∧
    (v ∈ a → v ∈ cleanList a) := by
  have hv : isEmptyVal v = false := by
    rcases h with rfl | rfl | rfl <;> rfl
  have hc : clean_empty v = v := by
    rcases h with rfl | rfl | rfl <;> rfl
  exact ⟨hv, hc, mem_cleanEntries_of k v hv hc l, mem_cleanList_of v hv hc a⟩

/-- Witness for C9: a boolean-`False` filter flag survives pruning next
to a pruned `None` entry, and `0` survives inside a list. -/
theorem clean_empty_preserves_falsy_scalars_witness :
    (("Exclude_Employees", Val.vbool false) ∈
      cleanEntries [("Exclude_Employees", Val.vbool false),
        ("x", Val.vnull)]) ∧
    Val.vint 0 ∈ cleanList [Val.vnull, Val.vint 0] :=
  ⟨(clean_empty_preserves_falsy_scalars (Val.vbool false) "Exclude_Employees"
      [("Exclude_Employees", Val.vbool false), ("x", Val.vnull)] []
      (Or.inl rfl)).2.2.1 (by decide),
   (clean_empty_preserves_falsy_scalars (Val.vint 0) "k" []
      [Val.vnull, Val.vint 0] (Or.inr (Or.inl rfl))).2.2.2 (by decide)⟩

/-- C10: key normalization is not injective: on a mapping containing
both `@k` and `k`, both keys are rewritten to `k`, the output has fewer
entries than the input, and the surviving entry holds the value of the
key that occurs later in the mapping order. -/
theorem transform_xml_dict_key_collision :
    transform_xml_dict (Val.vobj [("@k", Val.vint 1), ("k", Val.vint 2)]) =
      Val.vobj [("k", Val.vint 2)] ∧
    [("k", Val.vint 2)].length <
      [("@k", Val.vint 1), ("k", Val.vint 2)].length := by decide

end Workday
